import Mathlib

/-!
Verification of the `@lumjs/web-url-hash` URL hash codec (src/lib/index.js).

The development shallowly embeds the `URLHash` class: the mutable instance
(`this._getters`, `this._setters`, `this._json`, `this.shortOpt`,
`this.autoArray`, the one-entry decode cache `this._lastHash`/`this._lastOpts`,
and the fragment store read by the default `getHash`/written by the default
`setHash`) becomes an explicit `URLHash` state record, and each method becomes
a function threading that state.  JavaScript values that can appear in an
option map are embedded as the inductive `JSVal`; JavaScript objects used as
option maps become insertion-ordered association lists.  Exceptions thrown by
`serialize` are embedded as `Except String`, with the exact message strings of
the source.  The host primitives `JSON.parse`/`decodeURI` (which the code only
uses composed, inside `getVal`) are an opaque external capability and are
passed in as a function parameter `jp`; `JSON.stringify` is embedded concretely
by `stringify`.
-/

/-- A JavaScript value as it can occur in an option map handled by this
library: `null`, `undefined`, booleans, numbers (the code only ever produces
and consumes integral numerals, embedded as `Int`), strings, arrays, and plain
objects (insertion-ordered field lists). -/
inductive JSVal where
  | vnull
  | vundefined
  | vbool (b : Bool)
  | vnum (n : Int)
  | vstr (s : String)
  | varr (elems : List JSVal)
  | vobj (fields : List (String × JSVal))

/-- An option map: a JavaScript object used as a mapping from option names to
values, with unique keys and insertion order preserved. -/
abbrev OptionMap := List (String × JSVal)

/-- Is this value JavaScript `undefined`?  (Models `x === undefined`.) -/
def JSVal.isUndefined : JSVal → Bool
  | .vundefined => true
  | _ => false

/-- Property lookup `m[k]` on an option map, `none` when the key is absent. -/
def oget : OptionMap → String → Option JSVal
  | [], _ => none
  | (k', v') :: rest, k => if k' = k then some v' else oget rest k

/-- Property assignment `m[k] = v` on an option map: an existing key keeps its
position and gets the new value, a new key is appended (JavaScript object
insertion-order semantics). -/
def oset : OptionMap → String → JSVal → OptionMap
  | [], k, v => [(k, v)]
  | (k', v') :: rest, k, v =>
      if k' = k then (k', v) :: rest else (k', v') :: oset rest k v

/-- Property deletion `delete m[k]` on an option map (keys produced by the
code are unique, so removing the first occurrence models JavaScript). -/
def odel : OptionMap → String → OptionMap
  | [], _ => []
  | (k', v') :: rest, k => if k' = k then rest else (k', v') :: odel rest k

mutual
/-- The host `JSON.stringify`, embedded concretely for the value shapes the
code serializes (arrays and plain objects, with scalar leaves).  Inside an
array `undefined` stringifies as `null`; the code never calls it on a bare
`undefined`. -/
def stringify : JSVal → String
  | .vnull => "null"
  | .vundefined => "null"
  | .vbool true => "true"
  | .vbool false => "false"
  | .vnum n => toString n
  | .vstr s => "\"" ++ s ++ "\""
  | .varr es => "[" ++ stringifyElems es ++ "]"
  | .vobj fs => "\x7b" ++ stringifyFields fs ++ "\x7d"

/-- Comma-joined stringification of array elements. -/
def stringifyElems : List JSVal → String
  | [] => ""
  | [e] => stringify e
  | e :: es => stringify e ++ "," ++ stringifyElems es

/-- Comma-joined stringification of object fields; an `undefined` field is
omitted by `JSON.stringify`. -/
def stringifyFields : List (String × JSVal) → String
  | [] => ""
  | [(k, v)] => if v.isUndefined then "" else "\"" ++ k ++ "\":" ++ stringify v
  | (k, v) :: fs =>
      if v.isUndefined then stringifyFields fs
      else "\"" ++ k ++ "\":" ++ stringify v ++ "," ++ stringifyFields fs
end

/-- Split a character list at every occurrence of the character `c`,
JavaScript `String.prototype.split` semantics for a one-character separator:
`"".split(c)` is `[""]`, and separators at the ends produce empty pieces. -/
def splitChar (c : Char) : List Char → List (List Char)
  | [] => [[]]
  | x :: xs =>
      if x = c then [] :: splitChar c xs
      else
        match splitChar c xs with
        | [] => [[x]]
        | h :: t => (x :: h) :: t

/-- Join character lists with the character `c` between them (the inverse of
`splitChar` on separator-free pieces). -/
def joinChar (c : Char) : List (List Char) → List Char
  | [] => []
  | [l] => l
  | l :: ls => l ++ c :: joinChar c ls

theorem splitChar_ne_nil (c : Char) (l : List Char) : splitChar c l ≠ [] := by
  cases l with
  | nil => simp [splitChar]
  | cons x xs =>
    simp only [splitChar]
    split
    · simp
    · split <;> simp

theorem splitChar_not_mem (c : Char) (l : List Char) (h : c ∉ l) :
    splitChar c l = [l] := by
  induction l with
  | nil => rfl
  | cons x xs ih =>
    simp only [List.mem_cons, not_or] at h
    have hxc : ¬x = c := fun hx => h.1 hx.symm
    simp only [splitChar, if_neg hxc, ih h.2]

theorem splitChar_append_cons (c : Char) (a rest : List Char) (h : c ∉ a) :
    splitChar c (a ++ c :: rest) = a :: splitChar c rest := by
  induction a with
  | nil => simp [splitChar]
  | cons x xs ih =>
    simp only [List.mem_cons, not_or] at h
    have hxc : ¬x = c := fun hx => h.1 hx.symm
    simp only [List.cons_append, splitChar, if_neg hxc, List.append_eq]
    rw [ih h.2]

theorem splitChar_joinChar (c : Char) (parts : List (List Char))
    (hne : parts ≠ []) (hfree : ∀ p ∈ parts, c ∉ p) :
    splitChar c (joinChar c parts) = parts := by
  induction parts with
  | nil => exact absurd rfl hne
  | cons p ps ih =>
    cases ps with
    | nil =>
      simp only [joinChar]
      exact splitChar_not_mem c p (hfree p (by simp))
    | cons q qs =>
      simp only [joinChar]
      rw [splitChar_append_cons c p _ (hfree p (by simp))]
      rw [ih (by simp) (fun r hr => hfree r (List.mem_cons_of_mem p hr))]

/-- JavaScript `String.prototype.toLowerCase`, character-wise (the code only
compares against the ASCII literals `true`/`yes`/`false`/`no`). -/
def lowerStr (s : String) : String := String.mk (s.data.map Char.toLower)

/-- The default decode-side true matcher `/^(true|yes)$/i`: the whole input,
case-insensitively, is `true` or `yes`. -/
def defTrueMatch (s : String) : Bool :=
  lowerStr s == "true" || lowerStr s == "yes"

/-- The default decode-side false matcher `/^(false|no)$/i`. -/
def defFalseMatch (s : String) : Bool :=
  lowerStr s == "false" || lowerStr s == "no"

/-- Which of the three module-level JSON shape regexes `this._json` holds:
`JSON_ALL`, `JSON_ARR` or `JSON_OBJ` (the `===` comparisons in the source
compare against these three distinct constants, so the identity of the regex
is all that matters). -/
inductive JsonMode where
  | all
  | arr
  | obj
  deriving DecidableEq

/-- No character of the list is a line terminator (JavaScript regex `.`
matches any character except `\n`, `\r`, U+2028 and U+2029). -/
def noLineTerm (l : List Char) : Bool :=
  l.all (fun ch => !(ch == '\n' || ch == '\r' || ch == ' ' || ch == ' '))

/-- Test for an anchored lazy-bracket regex such as `/^\[.*?\]$/`: first
character is the opening bracket, last is the closing bracket, and the
interior contains no line terminator. -/
def bracketed (first last : Char) (s : String) : Bool :=
  match s.data with
  | [] => false
  | x :: xs =>
    match xs.getLast? with
    | none => false
    | some y => x == first && y == last && noLineTerm xs.dropLast

/-- The membership test `input.match(jc)` for the three JSON shape regexes
`JSON_ALL = /^(\[.*?\]|\{.*?\})$/`, `JSON_ARR = /^\[.*?\]$/`,
`JSON_OBJ = /^\{.*?\}$/`. -/
def jsonTest : JsonMode → String → Bool
  | .arr, s => bracketed '[' ']' s
  | .obj, s => bracketed '\x7b' '\x7d' s
  | .all, s => bracketed '[' ']' s || bracketed '\x7b' '\x7d' s

/-- The decode-side grammar `this._getters`.  The source allows strings or
regexes for each token; the embedding models the separator and assignment
tokens as the single characters of the default configuration, and the
true/false matchers as boolean string predicates (`none` models the token
being set to `false`, i.e. disabled). -/
structure Getters where
  separate : Char
  assign : Char
  trueM : Option (String → Bool)
  falseM : Option (String → Bool)

/-- The encode-side grammar `this._setters`: join literals for separator and
assignment, and the true/false literals (`none` models the token being set to
`false`, i.e. disabled). -/
structure Setters where
  separate : String
  assign : String
  trueS : Option String
  falseS : Option String

/-- JavaScript truthiness of an encode-side token that is either a string or
`false`: `false` and the empty string are falsy. -/
def truthyS : Option String → Bool
  | some s => s != ""
  | none => false

/-- The state of a `URLHash` instance: the two grammar configurations, the
`_json` regex selection, the `shortOpt` and `autoArray` flags, the one-entry
decode cache `_lastHash`/`_lastOpts`, plus the external fragment store that
the default `getHash` reads (`hash`, i.e. `location.hash`) and the trace of
strings committed through the fragment sink `setHash` (`sunk`). -/
structure URLHash where
  getters : Getters
  setters : Setters
  json : Option JsonMode
  shortOpt : Bool
  autoArray : Bool
  lastHash : Option String
  lastOpts : Option OptionMap
  hash : String
  sunk : List String

/-- Arguments of `getOpts`: optional `defaults` seed map and optional `hash`
override (absent means read the fragment source). -/
structure GetOptsArgs where
  defaults : Option OptionMap
  hash : Option String

/-- Arguments of `serialize` (and of `replace`/`update`, which forward them):
an optional per-call `autoArray` override. -/
structure SetOpts where
  autoArray : Option Bool

/-- Arguments of `getOpt`.  The same object is also passed on to `getOpts`,
so it carries that method's fields too, plus the per-call `shortOpt` override
and the `default` fallback value (absent default models `undefined`). -/
structure GetOptArgs where
  defaults : Option OptionMap
  hash : Option String
  shortOpt : Option Bool
  default : JSVal

/-- The `getOpts`-relevant part of a `getOpt` argument object. -/
def GetOptArgs.toGetOpts (a : GetOptArgs) : GetOptsArgs :=
  { defaults := a.defaults, hash := a.hash }

/-- JavaScript `String.prototype.split` with a one-character separator. -/
def jsSplit (c : Char) (s : String) : List String :=
  (splitChar c s.data).map (fun l => String.mk l)

/-- A stand-in for the opaque structured-parse capability (see `getVal`) that
never parses anything; used to instantiate closed statements whose code path
cannot reach the capability. -/
def noParse : String → Option JSVal := fun _ => none

/-- Steps (b)-(d) of the scalar-value resolver `getVal`: the true matcher,
then the false matcher, then the literal string itself. -/
def getValScalar (tv fv : Option (String → Bool)) (input : String) : JSVal :=
  match tv with
  | some f =>
    if f input then .vbool true
    else
      match fv with
      | some g => if g input then .vbool false else .vstr input
      | none => .vstr input
  | none =>
    match fv with
    | some g => if g input then .vbool false else .vstr input
    | none => .vstr input

/-- The inner function `getVal` of `getOpts`: if a JSON regex is configured
and matches, the result is `JSON.parse(decodeURI(input))`, with a parse or
URI error caught and turned into `undefined`; that host composition is the
opaque capability `jp`.  Otherwise the true matcher, the false matcher and
finally the literal string are tried in order. -/
def getVal (jp : String → Option JSVal) (jc : Option JsonMode)
    (tv fv : Option (String → Bool)) (input : String) : JSVal :=
  match jc with
  | some m =>
    if jsonTest m input then
      match jp input with
      | some v => v
      | none => .vundefined
    else getValScalar tv fv input
  | none => getValScalar tv fv input

/-- The per-segment body of the `getOpts` parse loop: split on the assignment
token; one piece is a bare flag (explicit `null`), two pieces resolve the
value through `getVal`, three or more pieces become an array of the literal
piece strings. -/
def parseSeg (jp : String → Option JSVal) (g : Getters) (jc : Option JsonMode)
    (acc : OptionMap) (segment : String) : OptionMap :=
  let assignment := jsSplit g.assign segment
  if assignment.length = 1 then
    oset acc segment .vnull
  else if assignment.length = 2 then
    oset acc (assignment.headD "")
      (getVal jp jc g.trueM g.falseM (assignment.getD 1 ""))
  else
    oset acc (assignment.headD "") (.varr ((assignment.drop 1).map JSVal.vstr))

/-- The cache short-circuit of `getOpts`: `this._lastHash && this._lastOpts
&& this._lastHash === hash` (a cached empty string would be falsy). -/
def cacheHit (st : URLHash) (hash : String) : Option OptionMap :=
  match st.lastHash, st.lastOpts with
  | some lh, some lo => if lh ≠ "" ∧ lh = hash then some lo else none
  | _, _ => none

/-- Method `getOpts`: parse a URL hash string into an option map.  The seed
is a copy of `defaults`; an empty or bare-`#` hash returns the seed alone; a
hash equal to the cached `_lastHash` returns the cached `_lastOpts`
unchanged; otherwise the leading `#` is stripped (its absence is only a
logged warning), the rest is split on the separator, each segment is parsed
by `parseSeg`, and the result is stored in the cache.  Returns the map and
the updated instance state. -/
def getOpts (jp : String → Option JSVal) (st : URLHash) (go : GetOptsArgs) :
    OptionMap × URLHash :=
  let hashOpts : OptionMap := go.defaults.getD []
  let hash := go.hash.getD st.hash
  if hash ≠ "" ∧ hash ≠ "#" then
    match cacheHit st hash with
    | some cached => (cached, st)
    | none =>
      let st1 := { st with lastHash := some hash }
      let body :=
        if hash.data.head? = some '#' then String.mk hash.data.tail else hash
      let segments := jsSplit st1.getters.separate body
      let res := segments.foldl (parseSeg jp st1.getters st1.json) hashOpts
      (res, { st1 with lastOpts := some res })
  else (hashOpts, st)

/-- Property read `m[name]` as JavaScript sees it: `undefined` when absent. -/
def lookupJS (m : OptionMap) (name : String) : JSVal :=
  (oget m name).getD .vundefined

/-- Is this value JavaScript `null`?  (Models `x === null`.) -/
def JSVal.isNull : JSVal → Bool
  | .vnull => true
  | _ => false

/-- Method `getOpt`: read one option.  A defined entry is returned as is;
otherwise, when the (possibly per-call overridden) `shortOpt` flag is on and
the decoded map has exactly one key whose value is explicit `null`, that key
name is returned as the value; otherwise the `default` argument. -/
def getOpt (jp : String → Option JSVal) (st : URLHash) (name : String)
    (a : GetOptArgs) : JSVal × URLHash :=
  let shortOpt := a.shortOpt.getD st.shortOpt
  let r := getOpts jp st a.toGetOpts
  let hashOpts := r.1
  if !(lookupJS hashOpts name).isUndefined then
    (lookupJS hashOpts name, r.2)
  else
    let keys := hashOpts.map Prod.fst
    if shortOpt && keys.length == 1 && (lookupJS hashOpts (keys.headD "")).isNull
    then (.vstr (keys.headD ""), r.2)
    else (a.default, r.2)

/-- Is this value a JavaScript string or number?  (The element types the
simple multi-assignment array form can carry.) -/
def isStrOrNum : JSVal → Bool
  | .vstr _ => true
  | .vnum _ => true
  | _ => false

/-- The inner function `serializeArray` of `serialize`: the flat
multi-assignment form, one `assign + item` per string-or-number element; any
element of another type is skipped with only a logged warning. -/
def serializeArray (assign : String) (array : List JSVal) : String :=
  array.foldl
    (fun s item =>
      match item with
      | .vstr v => s ++ assign ++ v
      | .vnum n => s ++ assign ++ toString n
      | _ => s)
    ""

/-- Method `serializeJsonArray`: `this._json === JSON_ARR || this._json ===
JSON_ALL`. -/
def serializeJsonArray (st : URLHash) : Bool :=
  decide (st.json = some JsonMode.arr ∨ st.json = some JsonMode.all)

/-- The expression `this.json` read by the source's `serializeJsonObject`.
The class only ever assigns `this._json` (in the constructor and in
`useJson`); no code path assigns a `json` property, so this read always
yields `undefined`. -/
def jsonProp (_st : URLHash) : Option JsonMode := none

/-- Method `serializeJsonObject`: `this._json === JSON_OBJ || this.json ===
JSON_ALL` — note the second disjunct reads the never-assigned `this.json`
(see `jsonProp`), not `this._json`, so it is always false. -/
def serializeJsonObject (st : URLHash) : Bool :=
  decide (st.json = some JsonMode.obj ∨ jsonProp st = some JsonMode.all)

/-- The entry loop of `serialize` over the remaining entries, carrying the
`doneFirst` flag and the string built so far.  Per entry: separator (after
the first), then the key; `null` emits nothing further; `true`/`false` emit
`assign` + the configured literal when that literal is truthy, and otherwise
fall through the remaining `typeof` tests into the invalid-type `TypeError`;
arrays choose between the flat form and `assign + JSON.stringify` depending
on `serializeJsonArray` and `autoArray`; other objects emit `assign +
JSON.stringify` when `serializeJsonObject` allows it and otherwise throw;
strings and numbers emit `assign` + their text. -/
def serLoop (st : URLHash) (autoArray : Bool) :
    List (String × JSVal) → Bool → String → Except String String
  | [], _, acc => .ok acc
  | (key, val) :: rest, doneFirst, acc =>
    let acc1 := if doneFirst then acc ++ st.setters.separate else acc
    let acc2 := acc1 ++ key
    match val with
    | .vnull => serLoop st autoArray rest true acc2
    | .vbool true =>
      if truthyS st.setters.trueS then
        serLoop st autoArray rest true
          (acc2 ++ st.setters.assign ++ st.setters.trueS.getD "")
      else .error "Invalid valid type passed to serialize()"
    | .vbool false =>
      if truthyS st.setters.falseS then
        serLoop st autoArray rest true
          (acc2 ++ st.setters.assign ++ st.setters.falseS.getD "")
      else .error "Invalid valid type passed to serialize()"
    | .varr items =>
      if serializeJsonArray st then
        if autoArray then
          if items.any (fun it => !isStrOrNum it) then
            serLoop st autoArray rest true
              (acc2 ++ st.setters.assign ++ stringify (.varr items))
          else
            serLoop st autoArray rest true
              (acc2 ++ serializeArray st.setters.assign items)
        else
          serLoop st autoArray rest true
            (acc2 ++ st.setters.assign ++ stringify (.varr items))
      else
        serLoop st autoArray rest true
          (acc2 ++ serializeArray st.setters.assign items)
    | .vobj fields =>
      if serializeJsonObject st then
        serLoop st autoArray rest true
          (acc2 ++ st.setters.assign ++ stringify (.vobj fields))
      else .error "Cannot serialize object when JSON is disabled"
    | .vstr s => serLoop st autoArray rest true (acc2 ++ st.setters.assign ++ s)
    | .vnum n =>
      serLoop st autoArray rest true (acc2 ++ st.setters.assign ++ toString n)
    | .vundefined => .error "Invalid valid type passed to serialize()"

/-- Method `serialize`: serialize an option map into a URL hash string that
always starts with `#`.  A thrown `Error`/`TypeError` is embedded as
`Except.error` with the source's message. -/
def serialize (st : URLHash) (obj : OptionMap) (so : SetOpts) :
    Except String String :=
  let autoArray := so.autoArray.getD st.autoArray
  serLoop st autoArray obj false "#"

/-- Method `replace`: serialize, then store `(newstring, reps)` in the cache
and commit `newstring` through the fragment sink (the default sink writes
`location.hash`, which the default source reads back, so the `hash` field is
updated and the commit is recorded in `sunk`).  When `serialize` throws, the
exception propagates before any of those assignments: the instance state is
returned unchanged. -/
def replace (st : URLHash) (reps : OptionMap) (so : SetOpts) :
    Except String Unit × URLHash :=
  match serialize st reps so with
  | .error e => (.error e, st)
  | .ok newstring =>
    (.ok (),
     { st with
       lastHash := some newstring
       lastOpts := some reps
       hash := newstring
       sunk := st.sunk ++ [newstring] })

/-- Method `update`: decode the current hash, apply the patch (an explicit
`undefined` value deletes the key, any other value is assigned), then
`replace` with the merged map. -/
def update (jp : String → Option JSVal) (st : URLHash) (updates : OptionMap)
    (so : SetOpts) (go : GetOptsArgs) : Except String Unit × URLHash :=
  let r := getOpts jp st go
  let current := updates.foldl
    (fun cur kv => if kv.2.isUndefined then odel cur kv.1 else oset cur kv.1 kv.2)
    r.1
  replace r.2 current so

/-- Method `delete`: build an all-`undefined` patch from the property list
and call `update` — passing only the patch, so the `setOpts` and `getOpts`
parameters received by `delete` are dropped. -/
def delete (jp : String → Option JSVal) (st : URLHash) (props : List String)
    (_so : SetOpts) (_go : GetOptsArgs) : Except String Unit × URLHash :=
  let updates := props.foldl (fun u p => oset u p JSVal.vundefined) []
  update jp st updates { autoArray := none } { defaults := none, hash := none }

/-- The values `useJson` accepts: `false`, `true`, `'array'`, or `'object'`
(any other value throws, which no claim exercises). -/
inductive UseJsonArg where
  | ufalse
  | utrue
  | uarray
  | uobject

/-- Method `useJson`: select which JSON shape regex `this._json` holds
(`null` disables JSON handling entirely). -/
def useJson (st : URLHash) : UseJsonArg → URLHash
  | .ufalse => { st with json := none }
  | .utrue => { st with json := some JsonMode.all }
  | .uarray => { st with json := some JsonMode.arr }
  | .uobject => { st with json := some JsonMode.obj }

/-- A freshly constructed instance with all defaults: default grammars on
both sides, JSON disabled, `shortOpt` off, `autoArray` on, empty cache, and
an empty fragment store. -/
def mkURLHash : URLHash :=
  { getters :=
      { separate := ';'
        assign := '='
        trueM := some defTrueMatch
        falseM := some defFalseMatch }
    setters :=
      { separate := ";"
        assign := "="
        trueS := some "true"
        falseS := some "false" }
    json := none
    shortOpt := false
    autoArray := true
    lastHash := none
    lastOpts := none
    hash := ""
    sunk := [] }

example :
    (getOpts noParse { mkURLHash with hash := "#a=1;b=2" }
      { defaults := none, hash := none }).1 =
      [("a", JSVal.vstr "1"), ("b", JSVal.vstr "2")] := by rfl

example :
    serialize mkURLHash [("a", JSVal.vstr "1"), ("c", JSVal.vnum 3)]
      { autoArray := none } = .ok "#a=1;c=3" := by rfl

theorem cacheHit_inv (st : URLHash) (h : String) (lo : OptionMap)
    (hc : cacheHit st h = some lo) :
    st.lastHash = some h ∧ st.lastOpts = some lo ∧ h ≠ "" := by
  rcases hlh : st.lastHash with _ | lh <;>
    rcases hlo : st.lastOpts with _ | lo' <;>
      simp only [cacheHit, hlh, hlo] at hc
  · exact absurd hc (by simp)
  · exact absurd hc (by simp)
  · exact absurd hc (by simp)
  · split at hc
    · next hcond =>
      obtain ⟨hne, heq⟩ := hcond
      cases hc
      exact ⟨by rw [heq], rfl, heq ▸ hne⟩
    · exact absurd hc (by simp)

theorem getOpts_parse_state (jp : String → Option JSVal) (st : URLHash)
    (d : Option OptionMap) (s : String) (h1 : s ≠ "") (h2 : s ≠ "#") :
    (getOpts jp st { defaults := d, hash := some s }).2.lastHash = some s ∧
    (getOpts jp st { defaults := d, hash := some s }).2.lastOpts
      = some (getOpts jp st { defaults := d, hash := some s }).1 := by
  simp only [getOpts, Option.getD_some]
  rw [if_pos ⟨h1, h2⟩]
  cases hc : cacheHit st s with
  | some lo =>
    obtain ⟨hlh, hlo, _⟩ := cacheHit_inv st s lo hc
    exact ⟨hlh, by rw [hlo]⟩
  | none => exact ⟨rfl, rfl⟩

theorem getOpts_cached_call (jp : String → Option JSVal) (st : URLHash)
    (d : Option OptionMap) (s : String) (r : OptionMap) (h1 : s ≠ "")
    (h2 : s ≠ "#") (hlh : st.lastHash = some s) (hlo : st.lastOpts = some r) :
    getOpts jp st { defaults := d, hash := some s } = (r, st) := by
  simp only [getOpts, Option.getD_some]
  rw [if_pos ⟨h1, h2⟩]
  have hc : cacheHit st s = some r := by
    simp [cacheHit, hlh, hlo, h1]
  rw [hc]

/-- C4: for a non-empty hash string `s` other than `"#"`, two successive
`getOpts` calls with `s` as the hash (and no intervening mutation) return the
same mapping, the second call leaves the instance state untouched, and after
the first call the one-entry cache holds exactly that mapping, so the second
call is answered from the cache without re-parsing. -/
theorem getOpts_idempotent_cached (jp : String → Option JSVal) (st : URLHash)
    (d : Option OptionMap) (s : String) (h1 : s ≠ "") (h2 : s ≠ "#") :
    (getOpts jp (getOpts jp st { defaults := d, hash := some s }).2
        { defaults := d, hash := some s }).1
      = (getOpts jp st { defaults := d, hash := some s }).1
    ∧ (getOpts jp (getOpts jp st { defaults := d, hash := some s }).2
        { defaults := d, hash := some s }).2
      = (getOpts jp st { defaults := d, hash := some s }).2
    ∧ (getOpts jp st { defaults := d, hash := some s }).2.lastHash = some s
    ∧ (getOpts jp st { defaults := d, hash := some s }).2.lastOpts
      = some (getOpts jp st { defaults := d, hash := some s }).1 := by
  obtain ⟨hlh, hlo⟩ := getOpts_parse_state jp st d s h1 h2
  have hsecond := getOpts_cached_call jp
    (getOpts jp st { defaults := d, hash := some s }).2 d s
    (getOpts jp st { defaults := d, hash := some s }).1 h1 h2 hlh hlo
  exact ⟨by rw [hsecond], by rw [hsecond], hlh, hlo⟩

/-- Closed instance of `getOpts_idempotent_cached` at the hash `"#x=1;y"`
starting from a fresh instance. -/
theorem getOpts_idempotent_cached_witness :
    "#x=1;y" ≠ "" ∧ "#x=1;y" ≠ "#"
    ∧ ((getOpts noParse
          (getOpts noParse mkURLHash
            { defaults := none, hash := some "#x=1;y" }).2
          { defaults := none, hash := some "#x=1;y" }).1
        = (getOpts noParse mkURLHash
            { defaults := none, hash := some "#x=1;y" }).1
      ∧ (getOpts noParse
          (getOpts noParse mkURLHash
            { defaults := none, hash := some "#x=1;y" }).2
          { defaults := none, hash := some "#x=1;y" }).2
        = (getOpts noParse mkURLHash
            { defaults := none, hash := some "#x=1;y" }).2
      ∧ (getOpts noParse mkURLHash
          { defaults := none, hash := some "#x=1;y" }).2.lastHash
        = some "#x=1;y"
      ∧ (getOpts noParse mkURLHash
          { defaults := none, hash := some "#x=1;y" }).2.lastOpts
        = some (getOpts noParse mkURLHash
            { defaults := none, hash := some "#x=1;y" }).1) :=
  ⟨by decide, by decide,
    getOpts_idempotent_cached noParse mkURLHash none "#x=1;y"
      (by decide) (by decide)⟩

/-- C9: once `getOpts` has parsed and cached the hash string `s`, a second
call with the same `s` but different `defaults` returns the cached mapping of
the first call; the new defaults contribute nothing. -/
theorem getOpts_cached_ignores_defaults (jp : String → Option JSVal)
    (st : URLHash) (d1 d2 : Option OptionMap) (s : String) (h1 : s ≠ "")
    (h2 : s ≠ "#") :
    (getOpts jp (getOpts jp st { defaults := d1, hash := some s }).2
        { defaults := d2, hash := some s }).1
      = (getOpts jp st { defaults := d1, hash := some s }).1 := by
  obtain ⟨hlh, hlo⟩ := getOpts_parse_state jp st d1 s h1 h2
  have hsecond := getOpts_cached_call jp
    (getOpts jp st { defaults := d1, hash := some s }).2 d2 s
    (getOpts jp st { defaults := d1, hash := some s }).1 h1 h2 hlh hlo
  rw [hsecond]

/-- Closed instance of `getOpts_cached_ignores_defaults`: the second call
passes defaults `{q: 9}` yet still gets the first call's cached mapping. -/
theorem getOpts_cached_ignores_defaults_witness :
    "#a=1" ≠ "" ∧ "#a=1" ≠ "#"
    ∧ (getOpts noParse
        (getOpts noParse mkURLHash { defaults := none, hash := some "#a=1" }).2
        { defaults := some [("q", JSVal.vnum 9)], hash := some "#a=1" }).1
      = (getOpts noParse mkURLHash
          { defaults := none, hash := some "#a=1" }).1 :=
  ⟨by decide, by decide,
    getOpts_cached_ignores_defaults noParse mkURLHash none
      (some [("q", JSVal.vnum 9)]) "#a=1" (by decide) (by decide)⟩

/-- C7: with the short-option fallback enabled, `getOpt` for a name that is
absent from the decoded mapping returns the sole key's name when the mapping
has exactly one entry whose value is explicit `null`, and returns the
configured `default` when the mapping has two or more entries. -/
theorem getOpt_shortOpt_fallback (jp : String → Option JSVal) (st : URLHash)
    (a : GetOptArgs) (name : String)
    (hshort : a.shortOpt.getD st.shortOpt = true) :
    (∀ k, (getOpts jp st a.toGetOpts).1 = [(k, JSVal.vnull)] → name ≠ k →
      (getOpt jp st name a).1 = JSVal.vstr k)
    ∧ (2 ≤ (getOpts jp st a.toGetOpts).1.length →
        oget (getOpts jp st a.toGetOpts).1 name = none →
        (getOpt jp st name a).1 = a.default) := by
  constructor
  · intro k hm hne
    have hkn : ¬(k = name) := fun hk => hne hk.symm
    simp [getOpt, hshort, hm, lookupJS, oget, hkn, JSVal.isUndefined, JSVal.isNull]
  · intro hlen hnone
    have h1 : lookupJS (getOpts jp st a.toGetOpts).1 name = JSVal.vundefined := by
      simp [lookupJS, hnone]
    have hne1 : ¬(List.length (getOpts jp st a.toGetOpts).1 = 1) := by omega
    simp [getOpt, h1, hne1, JSVal.isUndefined]

/-- Closed instance of `getOpt_shortOpt_fallback`: against the fragment
`"#fast"` the lookup of the absent name `"mode"` returns `"fast"`, and
against `"#a;b"` it returns the configured default. -/
theorem getOpt_shortOpt_fallback_witness :
    ((some true : Option Bool).getD mkURLHash.shortOpt = true
      ∧ (getOpts noParse mkURLHash
          (GetOptArgs.toGetOpts
            { defaults := none, hash := some "#fast", shortOpt := some true,
              default := JSVal.vundefined })).1 = [("fast", JSVal.vnull)]
      ∧ "mode" ≠ "fast"
      ∧ (getOpt noParse mkURLHash "mode"
          { defaults := none, hash := some "#fast", shortOpt := some true,
            default := JSVal.vundefined }).1 = JSVal.vstr "fast")
    ∧ (2 ≤ (getOpts noParse mkURLHash
          (GetOptArgs.toGetOpts
            { defaults := none, hash := some "#a;b", shortOpt := some true,
              default := JSVal.vstr "dflt" })).1.length
      ∧ oget (getOpts noParse mkURLHash
          (GetOptArgs.toGetOpts
            { defaults := none, hash := some "#a;b", shortOpt := some true,
              default := JSVal.vstr "dflt" })).1 "mode" = none
      ∧ (getOpt noParse mkURLHash "mode"
          { defaults := none, hash := some "#a;b", shortOpt := some true,
            default := JSVal.vstr "dflt" }).1 = JSVal.vstr "dflt") :=
  ⟨⟨rfl, rfl, by decide,
    (getOpt_shortOpt_fallback noParse mkURLHash
      { defaults := none, hash := some "#fast", shortOpt := some true,
        default := JSVal.vundefined } "mode" rfl).1 "fast" rfl (by decide)⟩,
   ⟨by decide, rfl,
    (getOpt_shortOpt_fallback noParse mkURLHash
      { defaults := none, hash := some "#a;b", shortOpt := some true,
        default := JSVal.vstr "dflt" } "mode" rfl).2 (by decide) rfl⟩⟩

/-- A value that the `serialize` entry loop passes over without error under
the given encode grammar: `null`, a boolean whose configured literal is
truthy, a string, or a number. -/
def simpleVal (se : Setters) : JSVal → Prop
  | .vnull => True
  | .vbool true => truthyS se.trueS = true
  | .vbool false => truthyS se.falseS = true
  | .vstr _ => True
  | .vnum _ => True
  | _ => False

theorem serLoop_obj_error (st : URLHash) (autoArray : Bool)
    (pre : List (String × JSVal)) (k : String)
    (fields : List (String × JSVal)) (post : List (String × JSVal))
    (hobj : serializeJsonObject st = false)
    (hpre : ∀ p ∈ pre, simpleVal st.setters p.2) :
    ∀ (df : Bool) (acc : String),
      serLoop st autoArray (pre ++ (k, JSVal.vobj fields) :: post) df acc
        = .error "Cannot serialize object when JSON is disabled" := by
  induction pre with
  | nil => intro df acc; simp [serLoop, hobj]
  | cons p ps ih =>
    intro df acc
    obtain ⟨key, val⟩ := p
    have hv := hpre (key, val) (by simp)
    have ihs := ih (fun q hq => hpre q (List.mem_cons_of_mem _ hq))
    cases val with
    | vnull => simpa [serLoop] using ihs true _
    | vbool b =>
      cases b with
      | true => simp only [simpleVal] at hv; simpa [serLoop, hv] using ihs true _
      | false => simp only [simpleVal] at hv; simpa [serLoop, hv] using ihs true _
    | vnum n => simpa [serLoop] using ihs true _
    | vstr s => simpa [serLoop] using ihs true _
    | vundefined => exact absurd hv (by simp [simpleVal])
    | varr es => exact absurd hv (by simp [simpleVal])
    | vobj fs => exact absurd hv (by simp [simpleVal])

/-- C5: `replace` on a map holding a non-array plain-object value while JSON
handling is disabled propagates the `serialize` exception: the result is the
error with the source's message, and the instance state — in particular the
`(lastHash, lastOpts)` cache and the `sunk` trace of fragment-sink calls —
is returned exactly as it was, so `setHash` was never invoked. -/
theorem replace_object_error_atomic (st : URLHash) (so : SetOpts)
    (pre post : List (String × JSVal)) (k : String)
    (fields : List (String × JSVal)) (hjson : st.json = none)
    (hpre : ∀ p ∈ pre, simpleVal st.setters p.2) :
    replace st (pre ++ (k, JSVal.vobj fields) :: post) so
      = (.error "Cannot serialize object when JSON is disabled", st) := by
  have hobj : serializeJsonObject st = false := by
    simp [serializeJsonObject, hjson, jsonProp]
  unfold replace serialize
  rw [serLoop_obj_error st _ pre k fields post hobj hpre false "#"]

/-- Closed instance of `replace_object_error_atomic`: encoding `{x: {k: 1}}`
on a fresh default instance (JSON disabled) errors and leaves the instance —
cache, fragment store and sink trace — untouched. -/
theorem replace_object_error_atomic_witness :
    mkURLHash.json = none
    ∧ replace mkURLHash [("x", JSVal.vobj [("k", JSVal.vnum 1)])]
        { autoArray := none }
      = (.error "Cannot serialize object when JSON is disabled", mkURLHash) :=
  ⟨rfl,
    replace_object_error_atomic mkURLHash { autoArray := none } [] []
      "x" [("k", JSVal.vnum 1)] rfl (by intro p hp; cases hp)⟩

/-- C10: `delete` drops its `setOpts` and `getOpts` parameters entirely —
its internal `update` call passes only the all-remove patch — so any two
invocations differing only in those parameters coincide. -/
theorem delete_ignores_options (jp : String → Option JSVal) (st : URLHash)
    (props : List String) (so so' : SetOpts) (go go' : GetOptsArgs) :
    delete jp st props so go = delete jp st props so' go' := rfl

/-- C6: with current fragment `"#a=1;b=2"`, `update` with a patch removing
`b` (explicit `undefined`) and setting `c` to `3` succeeds, commits exactly
the fragment `"#a=1;c=3"` through the sink, and the committed fragment
decodes (by a subsequent `getOpts` on the same instance) to exactly
`{a: "1", c: 3}`: the untouched key `a` keeps its decoded value, the key
patched with the remove marker is gone, and the new patch key `c` carries
its patch value. -/
theorem update_merge_preserves_untouched :
    (update noParse { mkURLHash with hash := "#a=1;b=2" }
        [("b", JSVal.vundefined), ("c", JSVal.vnum 3)]
        { autoArray := none } { defaults := none, hash := none }).1 = .ok ()
    ∧ (update noParse { mkURLHash with hash := "#a=1;b=2" }
        [("b", JSVal.vundefined), ("c", JSVal.vnum 3)]
        { autoArray := none } { defaults := none, hash := none }).2.sunk
      = ["#a=1;c=3"]
    ∧ (getOpts noParse
        (update noParse { mkURLHash with hash := "#a=1;b=2" }
          [("b", JSVal.vundefined), ("c", JSVal.vnum 3)]
          { autoArray := none } { defaults := none, hash := none }).2
        { defaults := none, hash := none }).1
      = [("a", JSVal.vstr "1"), ("c", JSVal.vnum 3)] :=
  ⟨rfl, rfl, rfl⟩

/-- C8: with `json: true` and `autoArray: true`, `{list: [1, "x"]}`
serializes to the flat multi-assignment `"#list=1=x"` (every element a
string or number), while `{list: [1, {k: 2}]}` serializes to `"#list="`
followed by the JSON text of the whole array (some element is neither). -/
theorem serialize_autoArray_heuristic :
    serialize (useJson mkURLHash .utrue)
        [("list", JSVal.varr [JSVal.vnum 1, JSVal.vstr "x"])]
        { autoArray := none } = .ok "#list=1=x"
    ∧ serialize (useJson mkURLHash .utrue)
        [("list", JSVal.varr [JSVal.vnum 1, JSVal.vobj [("k", JSVal.vnum 2)]])]
        { autoArray := none }
      = .ok ("#list=" ++
          stringify (JSVal.varr [JSVal.vnum 1, JSVal.vobj [("k", JSVal.vnum 2)]]))
    ∧ stringify (JSVal.varr [JSVal.vnum 1, JSVal.vobj [("k", JSVal.vnum 2)]])
      = "[1,\x7b\"k\":2\x7d]" :=
  ⟨rfl, rfl, rfl⟩

/-- C3 (code bug): with `json` configured `true` the class documentation
says both JSON arrays and JSON objects are allowed, and `serializeJsonArray`
duly returns true; but `serializeJsonObject` reads the never-assigned
`this.json` instead of `this._json` (see `jsonProp`), returns false, and so
`serialize` on `{x: {k: 1}}` throws "Cannot serialize object when JSON is
disabled" instead of emitting `assign` + the JSON text. -/
theorem serialize_object_jsonTrue_error :
    serializeJsonArray (useJson mkURLHash .utrue) = true
    ∧ serializeJsonObject (useJson mkURLHash .utrue) = false
    ∧ serialize (useJson mkURLHash .utrue)
        [("x", JSVal.vobj [("k", JSVal.vnum 1)])] { autoArray := none }
      = .error "Cannot serialize object when JSON is disabled" :=
  ⟨rfl, rfl, rfl⟩

/-- C2 (counterexample): with the encode-side true literal disabled,
serializing `{k: true}` does not degrade to the bare flag `"#k"` — the
boolean falls through every `typeof` test and `serialize` throws the
invalid-type `TypeError`. -/
theorem serialize_disabledTrue_counterexample :
    serialize { mkURLHash with
        setters := { mkURLHash.setters with trueS := none } }
        [("k", JSVal.vbool true)] { autoArray := none }
      = .error "Invalid valid type passed to serialize()"
    ∧ serialize { mkURLHash with
        setters := { mkURLHash.setters with trueS := none } }
        [("k", JSVal.vbool true)] { autoArray := none }
      ≠ .ok "#k" :=
  ⟨rfl, fun h => Except.noConfusion h⟩

/-- C2 (amended): when a boolean `true` is encoded and the encode-side true
literal is disabled (or empty, hence falsy), `serialize` raises the
invalid-type `TypeError` rather than emitting a bare flag. -/
theorem serialize_disabledTrue_typeError (st : URLHash) (k : String)
    (so : SetOpts) (h : truthyS st.setters.trueS = false) :
    serialize st [(k, JSVal.vbool true)] so
      = .error "Invalid valid type passed to serialize()" := by
  simp [serialize, serLoop, h]

/-- Closed instance of `serialize_disabledTrue_typeError` at a default
instance with `setters.true` set to `false`. -/
theorem serialize_disabledTrue_typeError_witness :
    truthyS ({ mkURLHash with
        setters := { mkURLHash.setters with trueS := none } }).setters.trueS
      = false
    ∧ serialize { mkURLHash with
        setters := { mkURLHash.setters with trueS := none } }
        [("flag", JSVal.vbool true)] { autoArray := none }
      = .error "Invalid valid type passed to serialize()" :=
  ⟨rfl,
    serialize_disabledTrue_typeError
      { mkURLHash with setters := { mkURLHash.setters with trueS := none } }
      "flag" { autoArray := none } rfl⟩

/-- C1 (counterexample): the round-trip law fails as stated.  The map
`{a: "yes"}` holds only a string value, yet serializing gives `"#a=yes"`
and decoding that hash yields `{a: true}` — the default true matcher
captures the string, and `true` is not equal to `"yes"` (not even by
JavaScript loose equality, where `"yes" == true` is false). -/
theorem roundtrip_counterexample :
    serialize mkURLHash [("a", JSVal.vstr "yes")] { autoArray := none }
      = .ok "#a=yes"
    ∧ (getOpts noParse mkURLHash { defaults := none, hash := some "#a=yes" }).1
      = [("a", JSVal.vbool true)]
    ∧ JSVal.vbool true ≠ JSVal.vstr "yes" :=
  ⟨rfl, rfl, fun h => JSVal.noConfusion h⟩

theorem strExt (s t : String) (h : s.data = t.data) : s = t := by
  cases s
  cases t
  exact congrArg String.mk h

theorem strData_append (s t : String) : (s ++ t).data = s.data ++ t.data := rfl

theorem strEta (s : String) : String.mk s.data = s := rfl

theorem str_append_empty (s : String) : s ++ "" = s :=
  strExt _ _ (by rw [strData_append]; simp)

theorem strAssoc (a b c : String) : a ++ b ++ c = a ++ (b ++ c) :=
  strExt _ _ (by simp only [strData_append, List.append_assoc])

theorem toDigitsCore_mem (fuel : Nat) : ∀ (n : Nat) (ds : List Char),
    (∀ c ∈ ds, c ∈ "0123456789".data) →
    ∀ c ∈ Nat.toDigitsCore 10 fuel n ds, c ∈ "0123456789".data := by
  have hdig : ∀ m, m < 10 → Nat.digitChar m ∈ "0123456789".data := by decide
  induction fuel with
  | zero => intro n ds hds; simpa [Nat.toDigitsCore] using hds
  | succ fuel ih =>
    intro n ds hds
    simp only [Nat.toDigitsCore]
    split
    · intro c hc
      rcases List.mem_cons.mp hc with rfl | hmem
      · exact hdig _ (Nat.mod_lt n (by norm_num))
      · exact hds c hmem
    · refine ih _ _ ?_
      intro c hc
      rcases List.mem_cons.mp hc with rfl | hmem
      · exact hdig _ (Nat.mod_lt n (by norm_num))
      · exact hds c hmem

theorem natRepr_mem (m : Nat) : ∀ c ∈ (Nat.repr m).data, c ∈ "0123456789".data := by
  intro c hc
  exact toDigitsCore_mem (m + 1) m [] (by simp) c hc

theorem intStr_mem (n : Int) :
    ∀ c ∈ (toString n).data, c ∈ "-0123456789".data := by
  have hwiden : ∀ c ∈ "0123456789".data, c ∈ "-0123456789".data := by decide
  show ∀ c ∈ (Int.repr n).data, c ∈ "-0123456789".data
  cases n with
  | ofNat m => exact fun c hc => hwiden c (natRepr_mem m c hc)
  | negSucc m =>
    intro c hc
    rw [Int.repr, strData_append] at hc
    rcases List.mem_append.mp hc with hm | hm
    · have hcm : c = '-' := by simpa using hm
      rw [hcm]
      decide
    · exact hwiden c (natRepr_mem (m + 1) c hm)

theorem lowerStr_num (n : Int) : lowerStr (toString n) = toString n := by
  have hfix : ∀ c ∈ "-0123456789".data, Char.toLower c = c := by decide
  apply strExt
  show (toString n).data.map Char.toLower = (toString n).data
  calc (toString n).data.map Char.toLower
      = (toString n).data.map id :=
        List.map_congr_left (fun c hc => hfix c (intStr_mem n c hc))
    _ = (toString n).data := List.map_id _

theorem numStr_facts (n : Int) :
    ';' ∉ (toString n).data ∧ '=' ∉ (toString n).data
    ∧ defTrueMatch (toString n) = false
    ∧ defFalseMatch (toString n) = false := by
  have hne : ∀ (w : String), 'r' ∈ w.data ∨ 'y' ∈ w.data ∨ 'f' ∈ w.data ∨
      'o' ∈ w.data → toString n ≠ w := by
    intro w hw h
    rcases hw with hm | hm | hm | hm <;>
      exact absurd (intStr_mem n _ (h ▸ hm)) (by decide)
  refine ⟨fun h => absurd (intStr_mem n ';' h) (by decide),
          fun h => absurd (intStr_mem n '=' h) (by decide), ?_, ?_⟩
  · rw [defTrueMatch, lowerStr_num]
    rw [Bool.or_eq_false_iff]
    exact ⟨beq_eq_false_iff_ne.mpr (hne "true" (by decide)),
           beq_eq_false_iff_ne.mpr (hne "yes" (by decide))⟩
  · rw [defFalseMatch, lowerStr_num]
    rw [Bool.or_eq_false_iff]
    exact ⟨beq_eq_false_iff_ne.mpr (hne "false" (by decide)),
           beq_eq_false_iff_ne.mpr (hne "no" (by decide))⟩

/-- A key that survives the default-grammar round trip: non-empty and free
of the separator and assignment characters. -/
def goodKey (k : String) : Bool :=
  k != "" && k.data.all (fun c => c != ';' && c != '=')

/-- A value that survives the default-grammar round trip: `null`, a boolean,
a number, or a string free of the separator and assignment characters that
matches neither default boolean matcher. -/
def goodVal : JSVal → Bool
  | .vnull => true
  | .vbool _ => true
  | .vnum _ => true
  | .vstr s =>
      s.data.all (fun c => c != ';' && c != '=')
      && !(defTrueMatch s || defFalseMatch s)
  | _ => false

theorem goodKey_spec (k : String) (h : goodKey k = true) :
    k ≠ "" ∧ ';' ∉ k.data ∧ '=' ∉ k.data := by
  rw [goodKey, Bool.and_eq_true, List.all_eq_true] at h
  refine ⟨bne_iff_ne.mp h.1, fun hm => ?_, fun hm => ?_⟩
  · have := h.2 ';' hm
    simp at this
  · have := h.2 '=' hm
    simp at this

theorem goodStr_spec (s : String) (h : goodVal (JSVal.vstr s) = true) :
    ';' ∉ s.data ∧ '=' ∉ s.data
    ∧ defTrueMatch s = false ∧ defFalseMatch s = false := by
  rw [goodVal, Bool.and_eq_true, List.all_eq_true] at h
  have hb := h.2
  rw [Bool.not_eq_eq_eq_not, Bool.not_true, Bool.or_eq_false_iff] at hb
  refine ⟨fun hm => ?_, fun hm => ?_, hb.1, hb.2⟩
  · have := h.1 ';' hm
    simp at this
  · have := h.1 '=' hm
    simp at this

/-- The text `serialize` emits for one entry of a round-trip-safe map under
the default encode grammar. -/
def entryStr : String × JSVal → String
  | (k, .vnull) => k
  | (k, .vbool true) => k ++ "=" ++ "true"
  | (k, .vbool false) => k ++ "=" ++ "false"
  | (k, .vnum n) => k ++ "=" ++ toString n
  | (k, .vstr s) => k ++ "=" ++ s
  | (k, _) => k

/-- The text `serialize` emits after the first entry: a separator before
each further entry. -/
def encTail : List (String × JSVal) → String
  | [] => ""
  | e :: r => ";" ++ entryStr e ++ encTail r

/-- The body (everything after the leading `#`) that `serialize` emits for a
round-trip-safe map under the default encode grammar. -/
def encBody : List (String × JSVal) → String
  | [] => ""
  | e :: r => entryStr e ++ encTail r

/-- What a value decodes back to: numbers come back as their decimal strings
(the decoder never produces a number), everything else survives unchanged. -/
def valToStr : JSVal → JSVal
  | .vnum n => .vstr (toString n)
  | v => v

/-- What one entry decodes back to: the key unchanged, the value through
`valToStr`. -/
def numToStr (p : String × JSVal) : String × JSVal := (p.1, valToStr p.2)

theorem mkSetters_sep : mkURLHash.setters.separate = ";" := rfl

theorem mkSetters_assign : mkURLHash.setters.assign = "=" := rfl

theorem mkSetters_trueT : truthyS mkURLHash.setters.trueS = true := rfl

theorem mkSetters_falseT : truthyS mkURLHash.setters.falseS = true := rfl

theorem mkSetters_trueGetD : mkURLHash.setters.trueS.getD "" = "true" := rfl

theorem mkSetters_falseGetD : mkURLHash.setters.falseS.getD "" = "false" := rfl

theorem serLoop_cons_good (k : String) (v : JSVal)
    (rest : List (String × JSVal)) (df : Bool) (acc : String)
    (hv : goodVal v = true) :
    serLoop mkURLHash true ((k, v) :: rest) df acc
      = serLoop mkURLHash true rest true
          ((if df then acc ++ ";" else acc) ++ entryStr (k, v)) := by
  cases v with
  | vnull => simp only [serLoop, mkSetters_sep, entryStr]
  | vbool b =>
    cases b with
    | true =>
      simp only [serLoop, mkSetters_sep, mkSetters_assign, mkSetters_trueT,
        mkSetters_trueGetD, if_true, entryStr]
      congr 1
      simp [strAssoc]
    | false =>
      simp only [serLoop, mkSetters_sep, mkSetters_assign, mkSetters_falseT,
        mkSetters_falseGetD, if_true, entryStr]
      congr 1
      simp [strAssoc]
  | vnum n =>
    simp only [serLoop, mkSetters_sep, mkSetters_assign, entryStr]
    congr 1
    simp [strAssoc]
  | vstr s =>
    simp only [serLoop, mkSetters_sep, mkSetters_assign, entryStr]
    congr 1
    simp [strAssoc]
  | vundefined => exact absurd hv (by simp [goodVal])
  | varr es => exact absurd hv (by simp [goodVal])
  | vobj fs => exact absurd hv (by simp [goodVal])

theorem serLoop_good (m : List (String × JSVal))
    (hvals : ∀ p ∈ m, goodVal p.2 = true) :
    ∀ acc, serLoop mkURLHash true m true acc = .ok (acc ++ encTail m) := by
  induction m with
  | nil => intro acc; simp [serLoop, encTail, str_append_empty]
  | cons e r ih =>
    intro acc
    obtain ⟨k, v⟩ := e
    rw [serLoop_cons_good k v r true acc (hvals (k, v) (by simp))]
    rw [ih (fun p hp => hvals p (List.mem_cons_of_mem _ hp)) _]
    simp only [if_true, encTail]
    congr 1
    simp [strAssoc]

theorem serialize_good (m : List (String × JSVal))
    (hvals : ∀ p ∈ m, goodVal p.2 = true) :
    serialize mkURLHash m { autoArray := none } = .ok ("#" ++ encBody m) := by
  cases m with
  | nil =>
    show Except.ok "#" = _
    rw [encBody, str_append_empty]
  | cons e r =>
    obtain ⟨k, v⟩ := e
    show serLoop mkURLHash true ((k, v) :: r) false "#" = _
    rw [serLoop_cons_good k v r false "#" (hvals (k, v) (by simp))]
    rw [serLoop_good r (fun p hp => hvals p (List.mem_cons_of_mem _ hp)) _]
    simp [encBody, strAssoc]

theorem semi_data : (";" : String).data = [';'] := rfl

theorem eqch_data : ("=" : String).data = ['='] := rfl

theorem hashmark_data : ("#" : String).data = ['#'] := rfl

theorem entryStr_semi_free (k : String) (v : JSVal)
    (hk : goodKey k = true) (hv : goodVal v = true) :
    ';' ∉ (entryStr (k, v)).data := by
  obtain ⟨-, hks, -⟩ := goodKey_spec k hk
  cases v with
  | vnull => simpa [entryStr] using hks
  | vbool b =>
    cases b with
    | true =>
      simp only [entryStr, strData_append, List.mem_append, not_or]
      exact ⟨⟨hks, by decide⟩, by decide⟩
    | false =>
      simp only [entryStr, strData_append, List.mem_append, not_or]
      exact ⟨⟨hks, by decide⟩, by decide⟩
  | vnum n =>
    simp only [entryStr, strData_append, List.mem_append, not_or]
    exact ⟨⟨hks, by decide⟩, (numStr_facts n).1⟩
  | vstr s =>
    simp only [entryStr, strData_append, List.mem_append, not_or]
    exact ⟨⟨hks, by decide⟩, (goodStr_spec s hv).1⟩
  | vundefined => exact absurd hv (by simp [goodVal])
  | varr es => exact absurd hv (by simp [goodVal])
  | vobj fs => exact absurd hv (by simp [goodVal])

theorem jsSplit_encBody (m : List (String × JSVal)) (hm : m ≠ [])
    (hfree : ∀ p ∈ m, ';' ∉ (entryStr p).data) :
    jsSplit ';' (encBody m) = m.map entryStr := by
  induction m with
  | nil => contradiction
  | cons e r ih =>
    cases r with
    | nil =>
      show (splitChar ';' (encBody [e]).data).map (fun l => String.mk l) = _
      rw [show encBody [e] = entryStr e ++ "" from rfl, str_append_empty]
      rw [splitChar_not_mem ';' _ (hfree e (by simp))]
      simp [strEta]
    | cons q qs =>
      have hdata : (encBody (e :: q :: qs)).data
          = (entryStr e).data ++ ';' :: (encBody (q :: qs)).data := by
        simp [encBody, encTail, strData_append, semi_data]
      show (splitChar ';' (encBody (e :: q :: qs)).data).map
          (fun l => String.mk l) = _
      rw [hdata, splitChar_append_cons ';' _ _ (hfree e (by simp))]
      have ihr := ih (by simp)
        (fun p hp => hfree p (List.mem_cons_of_mem _ hp))
      show String.mk (entryStr e).data ::
          (splitChar ';' (encBody (q :: qs)).data).map (fun l => String.mk l)
        = _
      rw [show (splitChar ';' (encBody (q :: qs)).data).map
            (fun l => String.mk l) = jsSplit ';' (encBody (q :: qs)) from rfl]
      rw [ihr, strEta]
      rfl

theorem mkGetters_sep : mkURLHash.getters.separate = ';' := rfl

theorem mkGetters_assign : mkURLHash.getters.assign = '=' := rfl

theorem mkGetters_true : mkURLHash.getters.trueM = some defTrueMatch := rfl

theorem mkGetters_false : mkURLHash.getters.falseM = some defFalseMatch := rfl

theorem jsSplit_key_piece (k : String) (piece : String)
    (hkeq : '=' ∉ k.data) (hpeq : '=' ∉ piece.data) :
    jsSplit '=' (k ++ "=" ++ piece) = [k, piece] := by
  show (splitChar '=' (k ++ "=" ++ piece).data).map (fun l => String.mk l) = _
  have hdata : (k ++ "=" ++ piece).data = k.data ++ '=' :: piece.data := by
    simp [strData_append, eqch_data]
  rw [hdata, splitChar_append_cons '=' _ _ hkeq,
    splitChar_not_mem '=' _ hpeq]
  simp [strEta]

theorem parseSeg_entry (jp : String → Option JSVal) (acc : OptionMap)
    (k : String) (v : JSVal) (hk : goodKey k = true) (hv : goodVal v = true) :
    parseSeg jp mkURLHash.getters none acc (entryStr (k, v))
      = oset acc k (valToStr v) := by
  obtain ⟨hke, hks, hkeq⟩ := goodKey_spec k hk
  cases v with
  | vnull =>
    have hsplit : jsSplit '=' k = [k] := by
      show (splitChar '=' k.data).map (fun l => String.mk l) = _
      rw [splitChar_not_mem '=' _ hkeq]
      simp [strEta]
    simp [parseSeg, entryStr, mkGetters_assign, hsplit, valToStr]
  | vbool b =>
    cases b with
    | true =>
      have hsplit := jsSplit_key_piece k "true" hkeq (by decide)
      simp [parseSeg, entryStr, mkGetters_assign, mkGetters_true,
        mkGetters_false, hsplit, getVal, getValScalar, valToStr,
        show defTrueMatch "true" = true by decide]
    | false =>
      have hsplit := jsSplit_key_piece k "false" hkeq (by decide)
      simp [parseSeg, entryStr, mkGetters_assign, mkGetters_true,
        mkGetters_false, hsplit, getVal, getValScalar, valToStr,
        show defTrueMatch "false" = false by decide,
        show defFalseMatch "false" = true by decide]
  | vnum n =>
    obtain ⟨-, hneq, htm, hfm⟩ := numStr_facts n
    have hsplit := jsSplit_key_piece k (toString n) hkeq hneq
    simp [parseSeg, entryStr, mkGetters_assign, mkGetters_true,
      mkGetters_false, hsplit, getVal, getValScalar, valToStr, htm, hfm]
  | vstr s =>
    obtain ⟨-, hseq, htm, hfm⟩ := goodStr_spec s hv
    have hsplit := jsSplit_key_piece k s hkeq hseq
    simp [parseSeg, entryStr, mkGetters_assign, mkGetters_true,
      mkGetters_false, hsplit, getVal, getValScalar, valToStr, htm, hfm]
  | vundefined => exact absurd hv (by simp [goodVal])
  | varr es => exact absurd hv (by simp [goodVal])
  | vobj fs => exact absurd hv (by simp [goodVal])

theorem oset_append (acc : OptionMap) (k : String) (v : JSVal)
    (h : k ∉ acc.map Prod.fst) : oset acc k v = acc ++ [(k, v)] := by
  induction acc with
  | nil => rfl
  | cons e r ih =>
    obtain ⟨k', v'⟩ := e
    simp only [List.map_cons, List.mem_cons, not_or] at h
    have hkk : ¬k' = k := fun he => h.1 he.symm
    simp only [oset, if_neg hkk]
    rw [ih h.2]
    rfl

theorem foldl_parseSeg_good (jp : String → Option JSVal)
    (m : List (String × JSVal))
    (hkeys : ∀ p ∈ m, goodKey p.1 = true)
    (hvals : ∀ p ∈ m, goodVal p.2 = true)
    (hnodup : (m.map Prod.fst).Nodup) :
    ∀ acc : OptionMap, (∀ p ∈ m, p.1 ∉ acc.map Prod.fst) →
      (m.map entryStr).foldl (parseSeg jp mkURLHash.getters none) acc
        = acc ++ m.map numToStr := by
  induction m with
  | nil => intro acc _; simp
  | cons e r ih =>
    intro acc hacc
    obtain ⟨k, v⟩ := e
    simp only [List.map_cons, List.foldl_cons]
    rw [parseSeg_entry jp acc k v (hkeys (k, v) (by simp)) (hvals (k, v) (by simp))]
    rw [oset_append acc k _ (hacc (k, v) (by simp))]
    simp only [List.map_cons, List.nodup_cons] at hnodup
    rw [ih (fun p hp => hkeys p (List.mem_cons_of_mem _ hp))
          (fun p hp => hvals p (List.mem_cons_of_mem _ hp)) hnodup.2
          (acc ++ [(k, valToStr v)]) ?_]
    · simp [numToStr]
    · intro p hp
      simp only [List.map_append, List.mem_append, not_or]
      refine ⟨fun hin => hacc p (List.mem_cons_of_mem _ hp) hin, ?_⟩
      simp only [List.map_cons, List.map_nil, List.mem_singleton]
      intro hpk
      exact hnodup.1 (hpk ▸ List.mem_map_of_mem Prod.fst hp)

theorem entryStr_data_ne (k : String) (v : JSVal) (hke : k ≠ "") :
    (entryStr (k, v)).data ≠ [] := by
  have hkd : k.data ≠ [] := fun h => hke (strExt k "" h)
  have hgen : ∀ x : String, (k ++ "=" ++ x).data ≠ [] := by
    intro x h
    rw [strData_append, strData_append] at h
    rcases List.append_eq_nil.mp h with ⟨h1, -⟩
    rcases List.append_eq_nil.mp h1 with ⟨h2, -⟩
    exact hkd h2
  cases v with
  | vnull => exact hkd
  | vbool b =>
    cases b with
    | true => exact hgen "true"
    | false => exact hgen "false"
  | vnum n => exact hgen (toString n)
  | vstr s => exact hgen s
  | vundefined => exact hkd
  | varr es => exact hkd
  | vobj fs => exact hkd

/-- C1 (amended): the round-trip law holds under the default grammar once
the grammar-colliding inputs are excluded and with numbers decoding to their
decimal strings.  For a map with distinct keys, every key non-empty and free
of `;`/`=`, and every value `null`, boolean, number, or a string free of
`;`/`=` matching neither default boolean matcher, `serialize` succeeds and
`getOpts` on the produced hash returns exactly the map with each number
value replaced by its decimal string — same keys, same insertion order,
other values compared by equality.  (The claim as stated fails, see
`roundtrip_counterexample`: a string the true/false matcher captures decodes
to a boolean, and a number decodes to its decimal string, so only this
restricted form holds.) -/
theorem roundtrip_amended (jp : String → Option JSVal)
    (m : List (String × JSVal))
    (hkeys : ∀ p ∈ m, goodKey p.1 = true)
    (hvals : ∀ p ∈ m, goodVal p.2 = true)
    (hnodup : (m.map Prod.fst).Nodup) :
    serialize mkURLHash m { autoArray := none } = .ok ("#" ++ encBody m)
    ∧ (getOpts jp mkURLHash
        { defaults := none, hash := some ("#" ++ encBody m) }).1
      = m.map numToStr := by
  refine ⟨serialize_good m hvals, ?_⟩
  cases m with
  | nil =>
    rw [show encBody [] = "" from rfl, str_append_empty]
    rfl
  | cons e r =>
    have hfree : ∀ p ∈ e :: r, ';' ∉ (entryStr p).data := by
      intro p hp
      obtain ⟨pk, pv⟩ := p
      exact entryStr_semi_free pk pv (hkeys _ hp) (hvals _ hp)
    have hbody_ne : (encBody (e :: r)).data ≠ [] := by
      obtain ⟨k, v⟩ := e
      have hke := (goodKey_spec k (hkeys (k, v) (by simp))).1
      have hent := entryStr_data_ne k v hke
      show (entryStr (k, v) ++ encTail r).data ≠ []
      rw [strData_append]
      intro h
      exact hent (List.append_eq_nil.mp h).1
    have hne1 : ("#" ++ encBody (e :: r)) ≠ "" := by
      intro h
      have hd := congrArg String.data h
      rw [strData_append, hashmark_data] at hd
      simp at hd
    have hne2 : ("#" ++ encBody (e :: r)) ≠ "#" := by
      intro h
      have hd := congrArg String.data h
      rw [strData_append, hashmark_data] at hd
      simp at hd
      exact hbody_ne hd
    have hhead : ("#" ++ encBody (e :: r)).data.head? = some '#' := by
      rw [strData_append, hashmark_data]
      rfl
    have htail : String.mk ("#" ++ encBody (e :: r)).data.tail
        = encBody (e :: r) := by
      rw [strData_append, hashmark_data]
      exact strEta _
    simp only [getOpts, Option.getD_some, Option.getD_none]
    rw [if_pos ⟨hne1, hne2⟩]
    rw [show cacheHit mkURLHash ("#" ++ encBody (e :: r)) = none from rfl]
    simp only [hhead]
    rw [if_pos trivial, htail, mkGetters_sep,
      jsSplit_encBody (e :: r) (by simp) hfree,
      show mkURLHash.json = none from rfl,
      foldl_parseSeg_good jp (e :: r) hkeys hvals hnodup [] (by simp)]
    rfl

/-- Closed instance of `roundtrip_amended` on a map holding one value of
each round-trip-safe kind: the hash is `"#flag;b=true;msg=hi;n=5"` and it
decodes back to the same map with the number `5` as the string `"5"`. -/
theorem roundtrip_amended_witness :
    (∀ p ∈ ([("flag", JSVal.vnull), ("b", JSVal.vbool true),
        ("msg", JSVal.vstr "hi"), ("n", JSVal.vnum 5)] : OptionMap),
       goodKey p.1 = true)
    ∧ (∀ p ∈ ([("flag", JSVal.vnull), ("b", JSVal.vbool true),
        ("msg", JSVal.vstr "hi"), ("n", JSVal.vnum 5)] : OptionMap),
       goodVal p.2 = true)
    ∧ (([("flag", JSVal.vnull), ("b", JSVal.vbool true),
        ("msg", JSVal.vstr "hi"), ("n", JSVal.vnum 5)] : OptionMap).map
          Prod.fst).Nodup
    ∧ "#" ++ encBody [("flag", JSVal.vnull), ("b", JSVal.vbool true),
        ("msg", JSVal.vstr "hi"), ("n", JSVal.vnum 5)]
      = "#flag;b=true;msg=hi;n=5"
    ∧ ([("flag", JSVal.vnull), ("b", JSVal.vbool true),
        ("msg", JSVal.vstr "hi"), ("n", JSVal.vnum 5)] : OptionMap).map
          numToStr
      = [("flag", JSVal.vnull), ("b", JSVal.vbool true),
         ("msg", JSVal.vstr "hi"), ("n", JSVal.vstr "5")]
    ∧ (serialize mkURLHash
          [("flag", JSVal.vnull), ("b", JSVal.vbool true),
           ("msg", JSVal.vstr "hi"), ("n", JSVal.vnum 5)]
          { autoArray := none }
        = .ok ("#" ++ encBody [("flag", JSVal.vnull), ("b", JSVal.vbool true),
            ("msg", JSVal.vstr "hi"), ("n", JSVal.vnum 5)])
      ∧ (getOpts noParse mkURLHash
          { defaults := none,
            hash := some ("#" ++ encBody
              [("flag", JSVal.vnull), ("b", JSVal.vbool true),
               ("msg", JSVal.vstr "hi"), ("n", JSVal.vnum 5)]) }).1
        = ([("flag", JSVal.vnull), ("b", JSVal.vbool true),
            ("msg", JSVal.vstr "hi"), ("n", JSVal.vnum 5)] : OptionMap).map
            numToStr) :=
  ⟨by decide, by decide, by decide, rfl, rfl,
    roundtrip_amended noParse
      [("flag", JSVal.vnull), ("b", JSVal.vbool true),
       ("msg", JSVal.vstr "hi"), ("n", JSVal.vnum 5)]
      (by decide) (by decide) (by decide)⟩
